import Mathlib

set_option linter.unusedVariables false

/-! Shallow embedding of the `qrl_navigation` core: `model.py` (`QNetwork`,
`DuelingQNetwork`) and `replay_buffer.py` (`ReplayBuffer`).  Real (float)
values are modelled by `ℚ`; torch tensors of rank one and two by `Tens`;
the seeded torch weight-initialisation stream by explicit oracle functions;
the process-wide generator of Python's `random` module by `PyRandom`. -/

/-- `torch.nn.functional.relu` on one scalar. -/
def reluQ (x : ℚ) : ℚ := max x 0

/-- Mean of a row (`torch.mean` along one dimension); in `ℚ` the empty mean is
`0/0 = 0`. -/
def qmean (l : List ℚ) : ℚ := l.sum / l.length

/-- Dot product of two rows. -/
def dot (r x : List ℚ) : ℚ := (List.zipWith (fun p q => p * q) r x).sum

/-- One `torch.nn.Linear` layer: a weight matrix (one row per output unit) and
a bias vector. -/
structure Layer where
  weight : List (List ℚ)
  bias : List ℚ
deriving DecidableEq

/-- `nn.Linear(din, dout)`: entries are drawn from the seeded torch
initialisation stream, modelled as explicit oracles `w` (weights) and `b`
(biases); only the shapes are fixed by the constructor. -/
def mkLinear (din dout : Nat) (w : Nat → Nat → ℚ) (b : Nat → ℚ) : Layer :=
  ⟨(List.range dout).map (fun i => (List.range din).map (w i)),
   (List.range dout).map b⟩

/-- Apply a linear layer to one row vector. -/
def linearRow (L : Layer) (x : List ℚ) : List ℚ :=
  List.zipWith (fun r c => dot r x + c) L.weight L.bias

/-- A torch tensor of rank one or two — the only ranks the two networks
manipulate. -/
inductive Tens where
  | t1 (v : List ℚ)
  | t2 (m : List (List ℚ))
deriving DecidableEq

/-- `nn.Linear.__call__` on a rank-1 or rank-2 tensor (row-wise). -/
def tlinear (L : Layer) : Tens → Tens
  | .t1 v => .t1 (linearRow L v)
  | .t2 m => .t2 (m.map (linearRow L))

/-- `F.relu`, elementwise. -/
def trelu : Tens → Tens
  | .t1 v => .t1 (v.map reluQ)
  | .t2 m => .t2 (m.map (fun r => r.map reluQ))

/-- `torch.mean(x, dim=1)`: defined only for rank-2 input; on a rank-1 tensor
dimension 1 is out of range and torch raises `IndexError`, modelled `none`. -/
def tmeanDim1 : Tens → Option Tens
  | .t1 _ => none
  | .t2 m => some (.t1 (m.map qmean))

/-- `Tensor.unsqueeze(1)`: a rank-1 tensor of length n becomes an n × 1 rank-2
tensor; a rank-2 input would become rank 3, outside this model. -/
def tunsqueeze1 : Tens → Option Tens
  | .t1 v => some (.t2 (v.map (fun q => [q])))
  | .t2 _ => none

/-- Broadcast a binary op over two rows, torch-style: equal lengths act
elementwise, a length-1 row broadcasts, anything else is a shape error. -/
def rowBroadcast (f : ℚ → ℚ → ℚ) (r s : List ℚ) : Option (List ℚ) :=
  if r.length = s.length then some (List.zipWith f r s)
  else if r.length = 1 then some (s.map (f (r.headD 0)))
  else if s.length = 1 then some (r.map (fun q => f q (s.headD 0)))
  else none

/-- Broadcast binary op on rank-2 tensors along dimension 0. -/
def matBroadcast (f : ℚ → ℚ → ℚ) (m n : List (List ℚ)) :
    Option (List (List ℚ)) :=
  if m.length = n.length then (List.zip m n).mapM (fun p => rowBroadcast f p.1 p.2)
  else if m.length = 1 then n.mapM (rowBroadcast f (m.headD []))
  else if n.length = 1 then m.mapM (fun r => rowBroadcast f r (n.headD []))
  else none

/-- Broadcast binary op on tensors (the `+` and `-` of the dueling forward). -/
def tbin (f : ℚ → ℚ → ℚ) : Tens → Tens → Option Tens
  | .t1 v, .t1 s => (rowBroadcast f v s).map .t1
  | .t2 m, .t2 n => (matBroadcast f m n).map .t2
  | .t1 v, .t2 n => (matBroadcast f [v] n).map .t2
  | .t2 m, .t1 s => (matBroadcast f m [s]).map .t2

/-- The plain network: the layer chain built by `QNetwork._init_fc_layers`. -/
structure QNetwork where
  fc_layers : List Layer

/-- `QNetwork.__init__` / `_init_fc_layers`: the `isinstance(fc_units, list)`
assert is the Lean argument type; `assert len(fc_units) > 0` failing is `none`.
Layers: `state_size → fc_units[0]`, successive `fc_units[i] → fc_units[i+1]`,
final `fc_units[-1] → action_size`.  `w`/`b` model the seeded init stream. -/
def QNetwork.init (state_size action_size : Nat) (fc_units : List Nat)
    (w : Nat → Nat → Nat → ℚ) (b : Nat → Nat → ℚ) : Option QNetwork :=
  if fc_units = [] then none
  else some ⟨
    mkLinear state_size (fc_units.headD 0) (w 0) (b 0) ::
    ((List.range (fc_units.length - 1)).map (fun idx =>
      mkLinear (fc_units.getD idx 0) (fc_units.getD (idx + 1) 0)
        (w (idx + 1)) (b (idx + 1)))
     ++ [mkLinear (fc_units.getLastD 0) action_size
          (w fc_units.length) (b fc_units.length)])⟩

/-- `QNetwork.forward`: relu after every layer except the last; the last
layer's output is returned raw. -/
def QNetwork.forward (net : QNetwork) (state : Tens) : Tens :=
  tlinear (net.fc_layers.getLastD ⟨[], []⟩)
    (net.fc_layers.dropLast.foldl (fun x L => trelu (tlinear L x)) state)

/-- The dueling network: shared trunk plus value and advantage heads.  The
xavier-normal reinitialisation of the two first head layers only changes which
stream the entries come from, not the shapes; entries are oracle-supplied. -/
structure DuelingQNetwork where
  fc_layers : List Layer
  value_layer1 : Layer
  value_layer2 : Layer
  action_layer1 : Layer
  action_layer2 : Layer

/-- `DuelingQNetwork.__init__` / `_init_fc_layers`: same asserts as the plain
variant; the trunk has no final `action_size` layer; heads are
`fc_units[-1] → 32 → 1` (value) and `fc_units[-1] → 32 → action_size`
(advantage). -/
def DuelingQNetwork.init (state_size action_size : Nat) (fc_units : List Nat)
    (w : Nat → Nat → Nat → ℚ) (b : Nat → Nat → ℚ) : Option DuelingQNetwork :=
  if fc_units = [] then none
  else some
    { fc_layers :=
        mkLinear state_size (fc_units.headD 0) (w 0) (b 0) ::
        (List.range (fc_units.length - 1)).map (fun idx =>
          mkLinear (fc_units.getD idx 0) (fc_units.getD (idx + 1) 0)
            (w (idx + 1)) (b (idx + 1)))
      value_layer1 := mkLinear (fc_units.getLastD 0) 32
        (w (fc_units.length + 1)) (b (fc_units.length + 1))
      value_layer2 := mkLinear 32 1
        (w (fc_units.length + 2)) (b (fc_units.length + 2))
      action_layer1 := mkLinear (fc_units.getLastD 0) 32
        (w (fc_units.length + 3)) (b (fc_units.length + 3))
      action_layer2 := mkLinear 32 action_size
        (w (fc_units.length + 4)) (b (fc_units.length + 4)) }

/-- `nn.Linear(din, dout)` over Python ints: torch raises `RuntimeError` at
construction when either dimension is negative, modelled by `none`; on
nonnegative dimensions it is `mkLinear` on the corresponding naturals. -/
def mkLinearZ (din dout : ℤ) (w : Nat → Nat → ℚ) (b : Nat → ℚ) : Option Layer :=
  if 0 ≤ din ∧ 0 ≤ dout then some (mkLinear din.toNat dout.toNat w b) else none

/-- `QNetwork.__init__` over the full integer domain of `fc_units`: the
asserts check only list-ness (the Lean type) and non-emptiness; each
`nn.Linear` construction may then fail on a negative dimension, in source
order (input layer, middle layers left to right, output layer).
`QNetwork.init` is this constructor restricted to torch's valid nonnegative
dimension domain. -/
def QNetwork.initZ (state_size action_size : Nat) (fc_units : List ℤ)
    (w : Nat → Nat → Nat → ℚ) (b : Nat → Nat → ℚ) : Option QNetwork :=
  if fc_units = [] then none
  else
    match mkLinearZ state_size (fc_units.headD 0) (w 0) (b 0) with
    | none => none
    | some first =>
      match (List.range (fc_units.length - 1)).mapM (fun idx =>
          mkLinearZ (fc_units.getD idx 0) (fc_units.getD (idx + 1) 0)
            (w (idx + 1)) (b (idx + 1))) with
      | none => none
      | some mids =>
        match mkLinearZ (fc_units.getLastD 0) action_size
            (w fc_units.length) (b fc_units.length) with
        | none => none
        | some last => some ⟨first :: (mids ++ [last])⟩

/-- `DuelingQNetwork.__init__` over the full integer domain of `fc_units`:
trunk as in the plain variant (without the final layer), then the four head
layers in source order.  `DuelingQNetwork.init` is the restriction to the
nonnegative dimension domain. -/
def DuelingQNetwork.initZ (state_size action_size : Nat) (fc_units : List ℤ)
    (w : Nat → Nat → Nat → ℚ) (b : Nat → Nat → ℚ) : Option DuelingQNetwork :=
  if fc_units = [] then none
  else
    match mkLinearZ state_size (fc_units.headD 0) (w 0) (b 0) with
    | none => none
    | some first =>
      match (List.range (fc_units.length - 1)).mapM (fun idx =>
          mkLinearZ (fc_units.getD idx 0) (fc_units.getD (idx + 1) 0)
            (w (idx + 1)) (b (idx + 1))) with
      | none => none
      | some mids =>
        match mkLinearZ (fc_units.getLastD 0) 32
            (w (fc_units.length + 1)) (b (fc_units.length + 1)) with
        | none => none
        | some v1 =>
          match mkLinearZ 32 1
              (w (fc_units.length + 2)) (b (fc_units.length + 2)) with
          | none => none
          | some v2 =>
            match mkLinearZ (fc_units.getLastD 0) 32
                (w (fc_units.length + 3)) (b (fc_units.length + 3)) with
            | none => none
            | some a1 =>
              match mkLinearZ 32 action_size
                  (w (fc_units.length + 4)) (b (fc_units.length + 4)) with
              | none => none
              | some a2 => some ⟨first :: mids, v1, v2, a1, a2⟩

/-- `DuelingQNetwork.forward`: relu after every trunk layer, the two heads,
then `v + (a - torch.mean(a, dim=1).unsqueeze(1))`. -/
def DuelingQNetwork.forward (net : DuelingQNetwork) (state : Tens) :
    Option Tens :=
  let x := net.fc_layers.foldl (fun y L => trelu (tlinear L y)) state
  let v := tlinear net.value_layer2 (trelu (tlinear net.value_layer1 x))
  let a := tlinear net.action_layer2 (trelu (tlinear net.action_layer1 x))
  match tmeanDim1 a with
  | none => none
  | some mn =>
    match tunsqueeze1 mn with
    | none => none
    | some mu =>
      match tbin (fun p q => p - q) a mu with
      | none => none
      | some centered => tbin (fun p q => p + q) v centered

/-- The value head's scalar output `V` per sample, read off from the same
trunk activation `forward` uses. -/
def DuelingQNetwork.valueOut (net : DuelingQNetwork) (state : Tens) : List ℚ :=
  match tlinear net.value_layer2 (trelu (tlinear net.value_layer1
      (net.fc_layers.foldl (fun y L => trelu (tlinear L y)) state))) with
  | .t1 v => v
  | .t2 m => m.map (fun r => r.headD 0)

/-- State of the process-wide generator of Python's `random` module.  The
stream itself is modelled by a linear congruential step; the claims depend
only on `random.seed` overwriting the one shared state and draws advancing
it. -/
structure PyRandom where
  rstate : Nat
deriving DecidableEq

/-- One step of the modelled generator stream. -/
def lcgStep (s : Nat) : Nat := (s * 1103515245 + 12345) % 2147483648

/-- `random.seed(n)`: reinitialise the shared global generator from `n`. -/
def PyRandom.seedGen (n : Nat) : PyRandom := ⟨lcgStep n⟩

/-- Draw one value and advance the shared generator. -/
def PyRandom.next (g : PyRandom) : Nat × PyRandom := (g.rstate, ⟨lcgStep g.rstate⟩)

/-- One experience tuple: the `namedtuple` stored by the buffer.  `done` is a
boolean; the sampled `dones` column converts it to `{0.0, 1.0}`. -/
structure Experience where
  state : List ℚ
  action : ℤ
  reward : ℚ
  next_state : List ℚ
  done : Bool
deriving DecidableEq

/-- `random.sample(pool, k)`: `k` elements at pairwise-distinct positions
(drawing without replacement), consuming the shared generator;
`ValueError` when `k > len(pool)`, modelled by `none`. -/
def pySample {α : Type} : PyRandom → List α → Nat → Option (List α × PyRandom)
  | g, _, 0 => some ([], g)
  | g, pool, k + 1 =>
    if h : pool.length = 0 then none
    else
      let r := g.next
      let i := r.1 % pool.length
      match pySample r.2 (pool.eraseIdx i) k with
      | none => none
      | some (rest, g2) =>
        some (pool.get ⟨i, Nat.mod_lt _ (Nat.pos_of_ne_zero h)⟩ :: rest, g2)

/-- The replay buffer: `deque(maxlen=buffer_size)` plus configuration.  No
generator field: the source seeds and draws from the shared global `random`
module (`self.seed = random.seed(seed)` binds `None`). -/
structure ReplayBuffer where
  action_size : Nat
  buffer_size : Nat
  batch_size : Nat
  memory : List Experience
  device : String
deriving DecidableEq

/-- `ReplayBuffer.__init__`: empty deque; `random.seed(seed)` replaces the
process-wide generator state, whatever it was. -/
def ReplayBuffer.init (action_size buffer_size batch_size seed : Nat)
    (device : String) (g : PyRandom) : ReplayBuffer × PyRandom :=
  (⟨action_size, buffer_size, batch_size, [], device⟩, PyRandom.seedGen seed)

/-- `ReplayBuffer.add` = `deque.append` with `maxlen`: append on the right,
evicting the oldest (leftmost) entry when at capacity.  Always succeeds. -/
def ReplayBuffer.add (b : ReplayBuffer) (e : Experience) : ReplayBuffer :=
  { b with memory := (b.memory ++ [e]).drop (b.memory.length + 1 - b.buffer_size) }

/-- The five stacked columns `sample` returns. -/
structure Batch where
  states : List (List ℚ)
  actions : List ℤ
  rewards : List ℚ
  next_states : List (List ℚ)
  dones : List ℚ
deriving DecidableEq

/-- `ReplayBuffer.sample`: `random.sample(self.memory, k=self.batch_size)`
from the shared generator, then the five vstacked columns.  `np.vstack` on an
empty list raises `ValueError` ("need at least one array to concatenate"), so
a successful draw of zero experiences (`batch_size = 0`) still fails, modelled
by `none`.  The buffer itself comes back unchanged — the method never writes
`self.memory`. -/
def ReplayBuffer.sample (b : ReplayBuffer) (g : PyRandom) :
    Option (Batch × ReplayBuffer × PyRandom) :=
  match pySample g b.memory b.batch_size with
  | none => none
  | some (exps, g2) =>
    if exps = [] then none
    else
      some (⟨exps.map (fun e => e.state), exps.map (fun e => e.action),
             exps.map (fun e => e.reward), exps.map (fun e => e.next_state),
             exps.map (fun e => if e.done then 1 else 0)⟩, b, g2)

/-- `is_ready_to_sample`: `len(self) > self.batch_size` (strict). -/
def ReplayBuffer.is_ready_to_sample (b : ReplayBuffer) : Bool :=
  b.memory.length > b.batch_size

/-- `__len__`: current occupied length. -/
def ReplayBuffer.len (b : ReplayBuffer) : Nat := b.memory.length

/-! ### Helper lemmas -/

theorem pySample_none_iff {α : Type} (g : PyRandom) (pool : List α) (k : Nat) :
    pySample g pool k = none ↔ pool.length < k := by
  induction k generalizing g pool with
  | zero => simp [pySample]
  | succ k ih =>
    simp only [pySample]
    by_cases h : pool.length = 0
    · simp [h]
    · rw [dif_neg h]
      cases hrec : pySample (g.next).2 (pool.eraseIdx ((g.next).1 % pool.length)) k with
      | none =>
        have := (ih _ _).mp hrec
        rw [List.length_eraseIdx_of_lt (Nat.mod_lt _ (Nat.pos_of_ne_zero h))] at this
        simp only [hrec]
        constructor
        · intro _; omega
        · intro _; trivial
      | some p =>
        have hnot := hrec ▸ (ih (g.next).2 (pool.eraseIdx ((g.next).1 % pool.length)))
        have : ¬ (pool.eraseIdx ((g.next).1 % pool.length)).length < k := by
          intro hlt
          exact absurd (hnot.mpr hlt) (by simp)
        rw [List.length_eraseIdx_of_lt (Nat.mod_lt _ (Nat.pos_of_ne_zero h))] at this
        simp only [hrec]
        constructor
        · intro hc; simp at hc
        · intro hlt; exfalso; omega

theorem pySample_some_length {α : Type} :
    ∀ (k : Nat) (g : PyRandom) (pool : List α) (l : List α) (g2 : PyRandom),
      pySample g pool k = some (l, g2) → l.length = k := by
  intro k
  induction k with
  | zero => intro g pool l g2 h; simp [pySample] at h; simp [h.1]
  | succ k ih =>
    intro g pool l g2 h
    simp only [pySample] at h
    by_cases hp : pool.length = 0
    · rw [dif_pos hp] at h; exact absurd h (by simp)
    · rw [dif_neg hp] at h
      cases hrec : pySample (g.next).2 (pool.eraseIdx ((g.next).1 % pool.length)) k with
      | none => rw [hrec] at h; exact absurd h (by simp)
      | some p =>
        rw [hrec] at h
        obtain ⟨rest, g3⟩ := p
        have := ih _ _ _ _ hrec
        simp only [Option.some.injEq, Prod.mk.injEq] at h
        rw [← h.1]
        simp [this]

theorem perm_get_cons_eraseIdx {α : Type} :
    ∀ (l : List α) (i : Nat) (h : i < l.length),
      l.Perm (l.get ⟨i, h⟩ :: l.eraseIdx i) := by
  intro l
  induction l with
  | nil => intro i h; exact absurd h (by simp)
  | cons a t ih =>
    intro i h
    cases i with
    | zero => simp [List.eraseIdx]
    | succ i =>
      have ht : i < t.length := by simpa using h
      have := ih i ht
      show (a :: t).Perm (t.get ⟨i, ht⟩ :: a :: t.eraseIdx i)
      exact (this.cons a).trans (List.Perm.swap _ _ _)

theorem pySample_subperm {α : Type} :
    ∀ (k : Nat) (g : PyRandom) (pool : List α) (l : List α) (g2 : PyRandom),
      pySample g pool k = some (l, g2) → l.Subperm pool := by
  intro k
  induction k with
  | zero =>
    intro g pool l g2 h
    simp [pySample] at h
    rw [h.1]
    exact List.nil_subperm
  | succ k ih =>
    intro g pool l g2 h
    simp only [pySample] at h
    by_cases hp : pool.length = 0
    · rw [dif_pos hp] at h; exact absurd h (by simp)
    · rw [dif_neg hp] at h
      cases hrec : pySample (g.next).2 (pool.eraseIdx ((g.next).1 % pool.length)) k with
      | none => rw [hrec] at h; exact absurd h (by simp)
      | some p =>
        rw [hrec] at h
        obtain ⟨rest, g3⟩ := p
        have hsub : rest.Subperm (pool.eraseIdx ((g.next).1 % pool.length)) :=
          ih _ _ _ _ hrec
        simp only [Option.some.injEq, Prod.mk.injEq] at h
        have hlt : (g.next).1 % pool.length < pool.length :=
          Nat.mod_lt _ (Nat.pos_of_ne_zero hp)
        have hcons :
            (pool.get ⟨(g.next).1 % pool.length, hlt⟩ :: rest).Subperm
              (pool.get ⟨(g.next).1 % pool.length, hlt⟩ ::
                pool.eraseIdx ((g.next).1 % pool.length)) :=
          (List.subperm_cons _).mpr hsub
        have hperm := perm_get_cons_eraseIdx pool ((g.next).1 % pool.length) hlt
        rw [← h.1]
        exact hcons.trans hperm.symm.subperm

theorem foldl_add_buffer_size (es : List Experience) :
    ∀ b : ReplayBuffer, (es.foldl ReplayBuffer.add b).buffer_size = b.buffer_size := by
  induction es with
  | nil => intro b; rfl
  | cons e t ih => intro b; rw [List.foldl_cons, ih]; rfl

theorem foldl_add_batch_size (es : List Experience) :
    ∀ b : ReplayBuffer, (es.foldl ReplayBuffer.add b).batch_size = b.batch_size := by
  induction es with
  | nil => intro b; rfl
  | cons e t ih => intro b; rw [List.foldl_cons, ih]; rfl

theorem foldl_add_memory (cap : Nat) :
    ∀ (es : List Experience) (b : ReplayBuffer), b.buffer_size = cap →
      b.memory.length ≤ cap →
      (es.foldl ReplayBuffer.add b).memory =
        (b.memory ++ es).drop (b.memory.length + es.length - cap) := by
  intro es
  induction es with
  | nil =>
    intro b hcap hle
    simp [Nat.sub_eq_zero_of_le hle]
  | cons e t ih =>
    intro b hcap hle
    rw [List.foldl_cons]
    have hbs : (b.add e).buffer_size = cap := by rw [← hcap]; rfl
    have hmem : (b.add e).memory =
        (b.memory ++ [e]).drop (b.memory.length + 1 - cap) := by
      simp [ReplayBuffer.add, hcap]
    have hlen : (b.add e).memory.length ≤ cap := by
      rw [hmem]
      simp only [List.length_drop, List.length_append, List.length_cons,
        List.length_nil]
      omega
    have := ih (b.add e) hbs hlen
    rw [this, hmem]
    have hd : b.memory.length + 1 - cap ≤ (b.memory ++ [e]).length := by
      simp
    rw [← List.drop_append_of_le_length hd, List.drop_drop]
    rw [List.append_assoc, List.singleton_append]
    congr 1
    simp only [List.length_drop, List.length_append, List.length_cons,
      List.length_nil]
    omega

/-! ### C1 -/

/-- C1: for every buffer and every add sequence, the length never exceeds
`buffer_size`; after inserting `buffer_size + k` experiences (k > 0) the
length is exactly `buffer_size` and the retained contents are exactly the
newest `buffer_size` entries in insertion order (the oldest `k` dropped):
strict FIFO eviction. -/
theorem replay_fifo_eviction (a cap bs seed : Nat) (dev : String) (g : PyRandom)
    (pre allExps : List Experience) (k : Nat)
    (hlen : allExps.length = cap + k) (hk : 0 < k) :
    ((pre.foldl ReplayBuffer.add ((ReplayBuffer.init a cap bs seed dev g).1)).len ≤ cap) ∧
    ((allExps.foldl ReplayBuffer.add ((ReplayBuffer.init a cap bs seed dev g).1)).len = cap) ∧
    ((allExps.foldl ReplayBuffer.add ((ReplayBuffer.init a cap bs seed dev g).1)).memory
      = allExps.drop k) := by
  have hinit : ((ReplayBuffer.init a cap bs seed dev g).1).memory = [] := rfl
  have hcap : ((ReplayBuffer.init a cap bs seed dev g).1).buffer_size = cap := rfl
  have h1 := foldl_add_memory cap pre _ hcap (by rw [hinit]; simp)
  have h2 := foldl_add_memory cap allExps _ hcap (by rw [hinit]; simp)
  rw [hinit] at h1 h2
  simp only [List.nil_append, List.length_nil, Nat.zero_add] at h1 h2
  refine ⟨?_, ?_, ?_⟩
  · rw [ReplayBuffer.len, h1]
    simp only [List.length_drop]
    omega
  · rw [ReplayBuffer.len, h2]
    simp only [List.length_drop]
    omega
  · rw [h2]
    congr 1
    omega

/-- Fixed experiences used by concrete witnesses. -/
def exA : Experience := ⟨[0], 0, 0, [0], false⟩

def exB : Experience := ⟨[1], 1, 1, [1], false⟩

def exC : Experience := ⟨[2], 2, 2, [2], true⟩

/-- C1 witness: buffer_size 2, three insertions; the oldest entry is evicted
and the newest two remain in order. -/
theorem replay_fifo_eviction_witness :
    (([exA].foldl ReplayBuffer.add ((ReplayBuffer.init 4 2 1 0 "cpu" ⟨0⟩).1)).len ≤ 2) ∧
    (([exA, exB, exC].foldl ReplayBuffer.add ((ReplayBuffer.init 4 2 1 0 "cpu" ⟨0⟩).1)).len = 2) ∧
    (([exA, exB, exC].foldl ReplayBuffer.add ((ReplayBuffer.init 4 2 1 0 "cpu" ⟨0⟩).1)).memory
      = [exA, exB, exC].drop 1) :=
  replay_fifo_eviction 4 2 1 0 "cpu" ⟨0⟩ [exA] [exA, exB, exC] 1 rfl (by decide)

/-! ### C5 -/

/-- A buffer with `batch_size = 0` and one stored experience: ready by the
strict length check, yet the empty draw makes `np.vstack` fail. -/
def bufZ : ReplayBuffer := ⟨4, 10, 0, [exA], "cpu"⟩

/-- C6: `is_ready_to_sample` is true exactly when the current length strictly
exceeds `batch_size`; with `batch_size = 64`, after exactly 64 insertions it
is false and after 65 it is true. -/
theorem is_ready_iff_strict :
    (∀ b : ReplayBuffer, b.is_ready_to_sample = true ↔ b.len > b.batch_size) ∧
    (((List.replicate 64 exA).foldl ReplayBuffer.add
        ((ReplayBuffer.init 4 100000 64 0 "cpu" ⟨0⟩).1)).is_ready_to_sample = false) ∧
    (((List.replicate 65 exA).foldl ReplayBuffer.add
        ((ReplayBuffer.init 4 100000 64 0 "cpu" ⟨0⟩).1)).is_ready_to_sample = true) := by
  refine ⟨?_, ?_, ?_⟩
  · intro b
    unfold ReplayBuffer.is_ready_to_sample ReplayBuffer.len
    simp
  · have hm := foldl_add_memory 100000 (List.replicate 64 exA)
      ((ReplayBuffer.init 4 100000 64 0 "cpu" ⟨0⟩).1) rfl (by simp [ReplayBuffer.init])
    have hb := foldl_add_batch_size (List.replicate 64 exA)
      ((ReplayBuffer.init 4 100000 64 0 "cpu" ⟨0⟩).1)
    unfold ReplayBuffer.is_ready_to_sample
    rw [hm, hb]
    simp [ReplayBuffer.init]
  · have hm := foldl_add_memory 100000 (List.replicate 65 exA)
      ((ReplayBuffer.init 4 100000 64 0 "cpu" ⟨0⟩).1) rfl (by simp [ReplayBuffer.init])
    have hb := foldl_add_batch_size (List.replicate 65 exA)
      ((ReplayBuffer.init 4 100000 64 0 "cpu" ⟨0⟩).1)
    unfold ReplayBuffer.is_ready_to_sample
    rw [hm, hb]
    simp [ReplayBuffer.init]

/-! ### C8 -/

/-- C8: whenever `sample` succeeds it leaves the buffer unchanged: same
record, same length, same stored sequence, and any subsequent adds behave
identically. -/
theorem sample_preserves_buffer (b : ReplayBuffer) (g : PyRandom)
    (batch : Batch) (b2 : ReplayBuffer) (g2 : PyRandom)
    (h : b.sample g = some (batch, b2, g2)) :
    b2 = b ∧ b2.len = b.len ∧ b2.memory = b.memory ∧
      ∀ (e : Experience) (es : List Experience),
        es.foldl ReplayBuffer.add (b2.add e) = es.foldl ReplayBuffer.add (b.add e) := by
  have hb : b2 = b := by
    unfold ReplayBuffer.sample at h
    cases hp : pySample g b.memory b.batch_size with
    | none => rw [hp] at h; simp at h
    | some p =>
      rw [hp] at h
      obtain ⟨exps, g3⟩ := p
      by_cases he : exps = []
      · simp [he] at h
      · simp [he] at h
        exact h.2.1.symm
  exact ⟨hb, by rw [hb], by rw [hb], fun e es => by rw [hb]⟩

/-- Concrete buffer used by witnesses: two stored experiences, batch size 1. -/
def bufW : ReplayBuffer := ⟨4, 10, 1, [exA, exB], "cpu"⟩

/-- The concrete batch drawn from `bufW` by the modelled generator at state 1. -/
def batchW : Batch := ⟨[[1]], [1], [1], [[1]], [0]⟩

/-- C8 witness: a concrete successful sample, with the conclusion instantiated
at one concrete follow-up add sequence. -/
theorem sample_preserves_buffer_witness :
    bufW = bufW ∧ bufW.len = bufW.len ∧ bufW.memory = bufW.memory ∧
      [exC].foldl ReplayBuffer.add (bufW.add exC) =
        [exC].foldl ReplayBuffer.add (bufW.add exC) :=
  let H := sample_preserves_buffer bufW ⟨1⟩ batchW bufW ⟨1103527590⟩ (by decide)
  ⟨H.1, H.2.1, H.2.2.1, H.2.2.2 exC [exC]⟩

/-! ### C4 -/

/-- C4 (amended): when `is_ready_to_sample()` is true and `batch_size` is
positive, `sample` succeeds and returns exactly `batch_size` entries drawn
without replacement (a sub-permutation of the stored contents), and the five
column batches are the five fields of one drawn list, aligned by draw order,
each with exactly `batch_size` rows.  (With `batch_size = 0` the readiness
check passes on a nonempty buffer but `np.vstack` fails on the empty draw.) -/
theorem sample_spec (b : ReplayBuffer) (g : PyRandom)
    (h : b.is_ready_to_sample = true) (hbs : 0 < b.batch_size) :
    ∃ (batch : Batch) (b2 : ReplayBuffer) (g2 : PyRandom) (exps : List Experience),
      b.sample g = some (batch, b2, g2) ∧
      exps.Subperm b.memory ∧
      exps.length = b.batch_size ∧
      batch.states = exps.map (fun e => e.state) ∧
      batch.actions = exps.map (fun e => e.action) ∧
      batch.rewards = exps.map (fun e => e.reward) ∧
      batch.next_states = exps.map (fun e => e.next_state) ∧
      batch.dones = exps.map (fun e => if e.done then 1 else 0) ∧
      batch.states.length = b.batch_size ∧
      batch.actions.length = b.batch_size ∧
      batch.rewards.length = b.batch_size ∧
      batch.next_states.length = b.batch_size ∧
      batch.dones.length = b.batch_size := by
  have hlt : b.batch_size < b.memory.length := by
    unfold ReplayBuffer.is_ready_to_sample at h
    exact of_decide_eq_true h
  have hns : ¬ (b.memory.length < b.batch_size) := by omega
  cases hp : pySample g b.memory b.batch_size with
  | none => exact absurd ((pySample_none_iff _ _ _).mp hp) hns
  | some p =>
    obtain ⟨exps, g2⟩ := p
    have hlen := pySample_some_length _ _ _ _ _ hp
    have hsub := pySample_subperm _ _ _ _ _ hp
    refine ⟨⟨exps.map (fun e => e.state), exps.map (fun e => e.action),
             exps.map (fun e => e.reward), exps.map (fun e => e.next_state),
             exps.map (fun e => if e.done then 1 else 0)⟩, b, g2, exps,
            ?_, hsub, hlen, rfl, rfl, rfl, rfl, rfl,
            by simp [hlen], by simp [hlen], by simp [hlen],
            by simp [hlen], by simp [hlen]⟩
    have hne : exps ≠ [] := by
      intro he
      rw [he] at hlen
      simp at hlen
      omega
    unfold ReplayBuffer.sample
    rw [hp]
    simp [hne]

/-- C4 witness: the concrete ready buffer `bufW` with the generator at
state 1. -/
theorem sample_spec_witness :
    ∃ (batch : Batch) (b2 : ReplayBuffer) (g2 : PyRandom) (exps : List Experience),
      bufW.sample ⟨1⟩ = some (batch, b2, g2) ∧
      exps.Subperm bufW.memory ∧
      exps.length = bufW.batch_size ∧
      batch.states = exps.map (fun e => e.state) ∧
      batch.actions = exps.map (fun e => e.action) ∧
      batch.rewards = exps.map (fun e => e.reward) ∧
      batch.next_states = exps.map (fun e => e.next_state) ∧
      batch.dones = exps.map (fun e => if e.done then 1 else 0) ∧
      batch.states.length = bufW.batch_size ∧
      batch.actions.length = bufW.batch_size ∧
      batch.rewards.length = bufW.batch_size ∧
      batch.next_states.length = bufW.batch_size ∧
      batch.dones.length = bufW.batch_size :=
  sample_spec bufW ⟨1⟩ (by decide) (by decide)

/-- C4 counterexample: with `batch_size = 0` and a nonempty buffer,
`is_ready_to_sample()` is true but `sample` fails (`np.vstack` on the empty
draw) instead of returning zero entries. -/
theorem sample_ready_zero_batch_cex :
    bufZ.is_ready_to_sample = true ∧ bufZ.sample ⟨2⟩ = none := by decide

/-! ### C9 -/

/-- Arbitrary pre-existing state of the shared generator in the C9 scenario. -/
def gStart : PyRandom := ⟨777⟩

/-- Buffer 1: constructed with seed 0, then three adds (adds do not touch the
generator). -/
def bufOne : ReplayBuffer :=
  ((((ReplayBuffer.init 4 10 2 0 "cpu" gStart).1).add exA).add exB).add exC

/-- The shared generator right after buffer 1's construction. -/
def gAfterOne : PyRandom := (ReplayBuffer.init 4 10 2 0 "cpu" gStart).2

/-- The shared generator after additionally constructing a second, unrelated
buffer with seed 1: `__init__` re-seeds the one process-wide generator. -/
def gAfterTwo : PyRandom := (ReplayBuffer.init 7 50 3 1 "cpu" gAfterOne).2

/-- C9 counterexample: buffer 1's sample differs depending on whether an
unrelated second buffer was constructed in between — the generator is shared
process-wide state seeded by every construction, not a private per-instance
generator, so buffer 1's draws are not a function of its own seed and
contents alone. -/
theorem sample_affected_by_other_buffer :
    bufOne.sample gAfterOne ≠ bufOne.sample gAfterTwo := by decide

/-- C9 amended: `__init__` seeds the process-wide generator as a function of
the seed alone, overwriting its previous state, and sampling is a
deterministic function of that shared state plus the buffer's memory and
batch size only (device and action size are irrelevant). -/
theorem sample_shared_generator_determinism (b1 b2 : ReplayBuffer) (g : PyRandom)
    (hm : b1.memory = b2.memory) (hb : b1.batch_size = b2.batch_size) :
    ((b1.sample g).map (fun r => (r.1, r.2.2)) =
      (b2.sample g).map (fun r => (r.1, r.2.2))) ∧
    (∀ (a1 c1 s1 seed : Nat) (d1 : String) (g1 : PyRandom)
       (a2 c2 s2 : Nat) (d2 : String) (g2 : PyRandom),
      (ReplayBuffer.init a1 c1 s1 seed d1 g1).2 =
        (ReplayBuffer.init a2 c2 s2 seed d2 g2).2) := by
  constructor
  · unfold ReplayBuffer.sample
    rw [hm, hb]
    cases pySample g b2.memory b2.batch_size with
    | none => rfl
    | some p =>
      obtain ⟨exps, g2⟩ := p
      by_cases he : exps = [] <;> simp [he]
  · intro _ _ _ _ _ _ _ _ _ _ _
    rfl

/-- A twin of `bufW` differing in action size, capacity and device but with
the same memory and batch size. -/
def bufTwin : ReplayBuffer := ⟨9, 77, 1, [exA, exB], "gpu"⟩

/-- C9 amended-claim witness: two coexisting buffers with equal contents get
equal draws from the shared generator, and construction with equal seeds
yields equal generator states whatever came before. -/
theorem sample_shared_generator_determinism_witness :
    ((bufW.sample ⟨5⟩).map (fun r => (r.1, r.2.2)) =
      (bufTwin.sample ⟨5⟩).map (fun r => (r.1, r.2.2))) ∧
    ((ReplayBuffer.init 4 10 2 3 "cpu" ⟨0⟩).2 =
      (ReplayBuffer.init 9 77 5 3 "gpu" ⟨42⟩).2) :=
  let H := sample_shared_generator_determinism bufW bufTwin ⟨5⟩ rfl rfl
  ⟨H.1, H.2 4 10 2 3 "cpu" ⟨0⟩ 9 77 5 "gpu" ⟨42⟩⟩

/-! ### Network helper lemmas -/

theorem tlinear_t2 (L : Layer) (m : List (List ℚ)) :
    tlinear L (.t2 m) = .t2 (m.map (linearRow L)) := rfl

theorem trelu_t2 (m : List (List ℚ)) :
    trelu (.t2 m) = .t2 (m.map (fun r => r.map reluQ)) := rfl

theorem tmeanDim1_t2 (m : List (List ℚ)) :
    tmeanDim1 (.t2 m) = some (.t1 (m.map qmean)) := rfl

theorem tunsqueeze1_t1 (v : List ℚ) :
    tunsqueeze1 (.t1 v) = some (.t2 (v.map (fun q => [q]))) := rfl

theorem tbin_t2 (f : ℚ → ℚ → ℚ) (m n : List (List ℚ)) :
    tbin f (.t2 m) (.t2 n) = (matBroadcast f m n).map .t2 := rfl

theorem length_linearRow_mkLinear (din dout : Nat) (w : Nat → Nat → ℚ)
    (b : Nat → ℚ) (z : List ℚ) :
    (linearRow (mkLinear din dout w b) z).length = dout := by
  simp [linearRow, mkLinear]

theorem linearRow_mkLinear_one (din : Nat) (w : Nat → Nat → ℚ) (b : Nat → ℚ)
    (z : List ℚ) :
    linearRow (mkLinear din 1 w b) z =
      [dot ((List.range din).map (w 0)) z + b 0] := by
  simp [linearRow, mkLinear, List.range_succ]

theorem fold_layers_t1 (layers : List Layer) (v : List ℚ) :
    ∃ y, layers.foldl (fun x L => trelu (tlinear L x)) (Tens.t1 v) = Tens.t1 y := by
  induction layers generalizing v with
  | nil => exact ⟨v, rfl⟩
  | cons L t ih =>
    obtain ⟨y, hy⟩ := ih ((linearRow L v).map reluQ)
    exact ⟨y, by simpa [tlinear, trelu] using hy⟩

theorem fold_layers_t2 (layers : List Layer) (m : List (List ℚ)) :
    ∃ m2, layers.foldl (fun x L => trelu (tlinear L x)) (Tens.t2 m) = Tens.t2 m2 ∧
      m2.length = m.length := by
  induction layers generalizing m with
  | nil => exact ⟨m, rfl, rfl⟩
  | cons L t ih =>
    obtain ⟨m2, h1, h2⟩ := ih ((m.map (linearRow L)).map (fun r => r.map reluQ))
    exact ⟨m2, by simpa [tlinear, trelu] using h1, by simpa using h2⟩

theorem qnet_forward_t1_len (ss as : Nat) (fcu : List Nat)
    (w : Nat → Nat → Nat → ℚ) (bo : Nat → Nat → ℚ) (net : QNetwork)
    (hinit : QNetwork.init ss as fcu w bo = some net) (x : List ℚ) :
    ∃ y, net.forward (.t1 x) = Tens.t1 y ∧ y.length = as := by
  unfold QNetwork.init at hinit
  by_cases h : fcu = []
  · rw [if_pos h] at hinit
    exact absurd hinit (by simp)
  · rw [if_neg h] at hinit
    injection hinit with hnet
    subst hnet
    obtain ⟨y, hy⟩ := fold_layers_t1 (mkLinear ss (fcu.headD 0) (w 0) (bo 0) ::
      (List.range (fcu.length - 1)).map (fun idx =>
        mkLinear (fcu.getD idx 0) (fcu.getD (idx + 1) 0)
          (w (idx + 1)) (bo (idx + 1)))) x
    refine ⟨linearRow (mkLinear (fcu.getLastD 0) as (w fcu.length) (bo fcu.length)) y,
      ?_, length_linearRow_mkLinear _ _ _ _ _⟩
    unfold QNetwork.forward
    dsimp only
    rw [← List.cons_append, List.getLastD_concat, List.dropLast_concat, hy]
    rfl

theorem qnet_forward_t2_shape (ss as : Nat) (fcu : List Nat)
    (w : Nat → Nat → Nat → ℚ) (bo : Nat → Nat → ℚ) (net : QNetwork)
    (hinit : QNetwork.init ss as fcu w bo = some net) (rows : List (List ℚ)) :
    ∃ m, net.forward (.t2 rows) = Tens.t2 m ∧ m.length = rows.length ∧
      ∀ r ∈ m, r.length = as := by
  unfold QNetwork.init at hinit
  by_cases h : fcu = []
  · rw [if_pos h] at hinit
    exact absurd hinit (by simp)
  · rw [if_neg h] at hinit
    injection hinit with hnet
    subst hnet
    obtain ⟨m2, h1, h2⟩ := fold_layers_t2 (mkLinear ss (fcu.headD 0) (w 0) (bo 0) ::
      (List.range (fcu.length - 1)).map (fun idx =>
        mkLinear (fcu.getD idx 0) (fcu.getD (idx + 1) 0)
          (w (idx + 1)) (bo (idx + 1)))) rows
    refine ⟨m2.map (linearRow (mkLinear (fcu.getLastD 0) as (w fcu.length) (bo fcu.length))),
      ?_, by simp [h2], ?_⟩
    · unfold QNetwork.forward
      dsimp only
      rw [← List.cons_append, List.getLastD_concat, List.dropLast_concat, h1]
      rfl
    · intro r hr
      obtain ⟨z, hz, rfl⟩ := List.mem_map.mp hr
      exact length_linearRow_mkLinear _ _ _ _ _

theorem duel_forward_t1_none (net : DuelingQNetwork) (x : List ℚ) :
    net.forward (.t1 x) = none := by
  obtain ⟨y, hy⟩ := fold_layers_t1 net.fc_layers x
  unfold DuelingQNetwork.forward
  rw [hy]
  rfl

/-! ### C3 -/

/-- C3: for every plain network built from a valid non-empty `fc_units` and
every input of the declared `state_size` — a single vector or a batch of such
vectors — `forward` (relu after every layer except the last, raw final
linear layer) returns exactly `action_size` values per sample. -/
theorem qnetwork_forward_shape (ss as : Nat) (fcu : List Nat)
    (w : Nat → Nat → Nat → ℚ) (bo : Nat → Nat → ℚ) (net : QNetwork)
    (hinit : QNetwork.init ss as fcu w bo = some net)
    (x : List ℚ) (hx : x.length = ss)
    (rows : List (List ℚ)) (hrows : ∀ r ∈ rows, r.length = ss) :
    (∃ y, net.forward (.t1 x) = Tens.t1 y ∧ y.length = as) ∧
    (∃ m, net.forward (.t2 rows) = Tens.t2 m ∧ m.length = rows.length ∧
      ∀ r ∈ m, r.length = as) :=
  ⟨qnet_forward_t1_len ss as fcu w bo net hinit x,
   qnet_forward_t2_shape ss as fcu w bo net hinit rows⟩

/-- Constant weight oracle for witness networks. -/
def wOne : Nat → Nat → Nat → ℚ := fun _ _ _ => 1

/-- Zero bias oracle for witness networks. -/
def bZero : Nat → Nat → ℚ := fun _ _ => 0

/-- A concrete plain network: state size 2, action size 3, one hidden layer. -/
def netPlainW : QNetwork := (QNetwork.init 2 3 [2] wOne bZero).getD ⟨[]⟩

/-- C3 witness: concrete plain network on a vector and on a two-row batch. -/
theorem qnetwork_forward_shape_witness :
    (∃ y, netPlainW.forward (.t1 [5, 7]) = Tens.t1 y ∧ y.length = 3) ∧
    (∃ m, netPlainW.forward (.t2 [[1, 2], [3, 4]]) = Tens.t2 m ∧
      m.length = [[1, 2], [3, 4]].length ∧ ∀ r ∈ m, r.length = 3) :=
  qnetwork_forward_shape 2 3 [2] wOne bZero netPlainW rfl [5, 7] rfl
    [[1, 2], [3, 4]] (by decide)

/-! ### C7 -/

/-- On the nonnegative dimension domain, both constructors fail exactly when
`fc_units` is empty (the non-emptiness assert). -/
theorem init_fails_iff_empty (ss as : Nat) (fcu : List Nat)
    (w : Nat → Nat → Nat → ℚ) (bo : Nat → Nat → ℚ) :
    ((QNetwork.init ss as fcu w bo = none) ↔ fcu = []) ∧
    ((DuelingQNetwork.init ss as fcu w bo = none) ↔ fcu = []) := by
  constructor
  · unfold QNetwork.init
    by_cases h : fcu = [] <;> simp [h]
  · unfold DuelingQNetwork.init
    by_cases h : fcu = [] <;> simp [h]

theorem mapM_option_eq_none_iff {α β : Type} (f : α → Option β) (l : List α) :
    l.mapM f = none ↔ ∃ a ∈ l, f a = none := by
  rw [← List.mapM'_eq_mapM]
  induction l with
  | nil => simp
  | cons a t ih =>
    cases hfa : f a with
    | none =>
      refine iff_of_true ?_ ⟨a, List.mem_cons_self a t, hfa⟩
      simp [List.mapM'_cons, hfa]
    | some x =>
      cases hmt : List.mapM' f t with
      | none =>
        obtain ⟨b, hb, hfb⟩ := ih.mp hmt
        refine iff_of_true ?_ ⟨b, List.mem_cons_of_mem a hb, hfb⟩
        simp [List.mapM'_cons, hfa, hmt]
      | some xs =>
        have hnt : ¬ ∃ b ∈ t, f b = none := by
          intro hex
          rw [ih.mpr hex] at hmt
          exact absurd hmt (by simp)
        refine iff_of_false (by simp [List.mapM'_cons, hfa, hmt]) ?_
        rintro ⟨b, hb, hfb⟩
        rcases List.mem_cons.mp hb with rfl | hbt
        · rw [hfa] at hfb
          exact absurd hfb (by simp)
        · exact hnt ⟨b, hbt, hfb⟩

theorem mkLinearZ_none_iff (din dout : ℤ) (w : Nat → Nat → ℚ) (b : Nat → ℚ) :
    mkLinearZ din dout w b = none ↔ (din < 0 ∨ dout < 0) := by
  unfold mkLinearZ
  by_cases h : 0 ≤ din ∧ 0 ≤ dout
  · rw [if_pos h]
    constructor
    · intro hc
      exact absurd hc (by simp)
    · intro hc
      omega
  · rw [if_neg h]
    constructor
    · intro _
      omega
    · intro _
      rfl

theorem getD_eq_get {α : Type} (l : List α) (d : α) {n : Nat} (h : n < l.length) :
    l.getD n d = l.get ⟨n, h⟩ := by
  induction l generalizing n with
  | nil => exact absurd h (by simp)
  | cons a t ih =>
    cases n with
    | zero => rfl
    | succ m => exact ih (by simpa using h)

theorem headD_eq_get {α : Type} (l : List α) (d : α) (h : 0 < l.length) :
    l.headD d = l.get ⟨0, h⟩ := by
  cases l with
  | nil => exact absurd h (by simp)
  | cons a t => rfl

theorem getLastD_mem_of_ne_nil {α : Type} {l : List α} (d : α) (h : l ≠ []) :
    l.getLastD d ∈ l := by
  rw [List.getLastD_eq_getLast?, List.getLast?_eq_getLast l h]
  exact List.getLast_mem h

theorem initZ_plain_none_iff (ss as : Nat) (fcu : List ℤ)
    (w : Nat → Nat → Nat → ℚ) (bo : Nat → Nat → ℚ) :
    QNetwork.initZ ss as fcu w bo = none ↔ fcu = [] ∨ ∃ d ∈ fcu, d < 0 := by
  unfold QNetwork.initZ
  by_cases hemp : fcu = []
  · rw [if_pos hemp]
    exact iff_of_true rfl (Or.inl hemp)
  rw [if_neg hemp]
  have hlpos : 0 < fcu.length := List.length_pos.mpr hemp
  cases hA : mkLinearZ (ss : ℤ) (fcu.headD 0) (w 0) (bo 0) with
  | none =>
    have hneg : fcu.headD 0 < 0 := by
      rcases (mkLinearZ_none_iff _ _ _ _).mp hA with h | h
      · exact absurd h (by omega)
      · exact h
    refine iff_of_true rfl (Or.inr ⟨fcu.headD 0, ?_, hneg⟩)
    rw [headD_eq_get fcu 0 hlpos]
    exact List.get_mem fcu 0 hlpos
  | some first =>
    cases hB : (List.range (fcu.length - 1)).mapM (fun idx =>
        mkLinearZ (fcu.getD idx 0) (fcu.getD (idx + 1) 0)
          (w (idx + 1)) (bo (idx + 1))) with
    | none =>
      obtain ⟨idx, hidx, hnone⟩ := (mapM_option_eq_none_iff _ _).mp hB
      rw [List.mem_range] at hidx
      rcases (mkLinearZ_none_iff _ _ _ _).mp hnone with h | h
      · refine iff_of_true rfl (Or.inr ⟨fcu.getD idx 0, ?_, h⟩)
        have hix : idx < fcu.length := by omega
        rw [getD_eq_get fcu 0 hix]
        exact List.get_mem _ _ _
      · refine iff_of_true rfl (Or.inr ⟨fcu.getD (idx + 1) 0, ?_, h⟩)
        have hix : idx + 1 < fcu.length := by omega
        rw [getD_eq_get fcu 0 hix]
        exact List.get_mem _ _ _
    | some mids =>
      cases hC : mkLinearZ (fcu.getLastD 0) (as : ℤ)
          (w fcu.length) (bo fcu.length) with
      | none =>
        have hneg : fcu.getLastD 0 < 0 := by
          rcases (mkLinearZ_none_iff _ _ _ _).mp hC with h | h
          · exact h
          · exact absurd h (by omega)
        exact iff_of_true rfl
          (Or.inr ⟨fcu.getLastD 0, getLastD_mem_of_ne_nil 0 hemp, hneg⟩)
      | some lastL =>
        refine iff_of_false (by simp) ?_
        rintro (h | ⟨d, hd, hdneg⟩)
        · exact hemp h
        · obtain ⟨⟨i, hi⟩, hget⟩ := List.mem_iff_get.mp hd
          cases i with
          | zero =>
            have h0 : fcu.get ⟨0, hlpos⟩ = d := hget
            have hneg0 : fcu.headD 0 < 0 := by
              rw [headD_eq_get fcu 0 hlpos, h0]
              exact hdneg
            have := (mkLinearZ_none_iff (ss : ℤ) (fcu.headD 0)
              (w 0) (bo 0)).mpr (Or.inr hneg0)
            rw [hA] at this
            exact absurd this (by simp)
          | succ j =>
            have hj : j < fcu.length - 1 := by omega
            have h1 : fcu.get ⟨j + 1, hi⟩ = d := hget
            have hnone : mkLinearZ (fcu.getD j 0) (fcu.getD (j + 1) 0)
                (w (j + 1)) (bo (j + 1)) = none := by
              apply (mkLinearZ_none_iff _ _ _ _).mpr
              right
              rw [getD_eq_get fcu 0 hi, h1]
              exact hdneg
            have := (mapM_option_eq_none_iff (fun idx =>
                mkLinearZ (fcu.getD idx 0) (fcu.getD (idx + 1) 0)
                  (w (idx + 1)) (bo (idx + 1)))
              (List.range (fcu.length - 1))).mpr ⟨j, List.mem_range.mpr hj, hnone⟩
            rw [hB] at this
            exact absurd this (by simp)

theorem initZ_duel_none_iff (ss as : Nat) (fcu : List ℤ)
    (w : Nat → Nat → Nat → ℚ) (bo : Nat → Nat → ℚ) :
    DuelingQNetwork.initZ ss as fcu w bo = none ↔ fcu = [] ∨ ∃ d ∈ fcu, d < 0 := by
  unfold DuelingQNetwork.initZ
  by_cases hemp : fcu = []
  · rw [if_pos hemp]
    exact iff_of_true rfl (Or.inl hemp)
  rw [if_neg hemp]
  have hlpos : 0 < fcu.length := List.length_pos.mpr hemp
  cases hA : mkLinearZ (ss : ℤ) (fcu.headD 0) (w 0) (bo 0) with
  | none =>
    have hneg : fcu.headD 0 < 0 := by
      rcases (mkLinearZ_none_iff _ _ _ _).mp hA with h | h
      · exact absurd h (by omega)
      · exact h
    refine iff_of_true rfl (Or.inr ⟨fcu.headD 0, ?_, hneg⟩)
    rw [headD_eq_get fcu 0 hlpos]
    exact List.get_mem fcu 0 hlpos
  | some first =>
    cases hB : (List.range (fcu.length - 1)).mapM (fun idx =>
        mkLinearZ (fcu.getD idx 0) (fcu.getD (idx + 1) 0)
          (w (idx + 1)) (bo (idx + 1))) with
    | none =>
      obtain ⟨idx, hidx, hnone⟩ := (mapM_option_eq_none_iff _ _).mp hB
      rw [List.mem_range] at hidx
      rcases (mkLinearZ_none_iff _ _ _ _).mp hnone with h | h
      · refine iff_of_true rfl (Or.inr ⟨fcu.getD idx 0, ?_, h⟩)
        have hix : idx < fcu.length := by omega
        rw [getD_eq_get fcu 0 hix]
        exact List.get_mem _ _ _
      · refine iff_of_true rfl (Or.inr ⟨fcu.getD (idx + 1) 0, ?_, h⟩)
        have hix : idx + 1 < fcu.length := by omega
        rw [getD_eq_get fcu 0 hix]
        exact List.get_mem _ _ _
    | some mids =>
      cases hV1 : mkLinearZ (fcu.getLastD 0) 32
          (w (fcu.length + 1)) (bo (fcu.length + 1)) with
      | none =>
        have hneg : fcu.getLastD 0 < 0 := by
          rcases (mkLinearZ_none_iff _ _ _ _).mp hV1 with h | h
          · exact h
          · exact absurd h (by omega)
        exact iff_of_true rfl
          (Or.inr ⟨fcu.getLastD 0, getLastD_mem_of_ne_nil 0 hemp, hneg⟩)
      | some v1 =>
        cases hV2 : mkLinearZ 32 1
            (w (fcu.length + 2)) (bo (fcu.length + 2)) with
        | none =>
          rcases (mkLinearZ_none_iff _ _ _ _).mp hV2 with h | h <;> omega
        | some v2 =>
          cases hA1 : mkLinearZ (fcu.getLastD 0) 32
              (w (fcu.length + 3)) (bo (fcu.length + 3)) with
          | none =>
            have hneg : fcu.getLastD 0 < 0 := by
              rcases (mkLinearZ_none_iff _ _ _ _).mp hA1 with h | h
              · exact h
              · exact absurd h (by omega)
            exact iff_of_true rfl
              (Or.inr ⟨fcu.getLastD 0, getLastD_mem_of_ne_nil 0 hemp, hneg⟩)
          | some a1 =>
            cases hA2 : mkLinearZ 32 (as : ℤ)
                (w (fcu.length + 4)) (bo (fcu.length + 4)) with
            | none =>
              rcases (mkLinearZ_none_iff _ _ _ _).mp hA2 with h | h <;> omega
            | some a2 =>
              refine iff_of_false (by simp) ?_
              rintro (h | ⟨d, hd, hdneg⟩)
              · exact hemp h
              · obtain ⟨⟨i, hi⟩, hget⟩ := List.mem_iff_get.mp hd
                cases i with
                | zero =>
                  have h0 : fcu.get ⟨0, hlpos⟩ = d := hget
                  have hneg0 : fcu.headD 0 < 0 := by
                    rw [headD_eq_get fcu 0 hlpos, h0]
                    exact hdneg
                  have := (mkLinearZ_none_iff (ss : ℤ) (fcu.headD 0)
                    (w 0) (bo 0)).mpr (Or.inr hneg0)
                  rw [hA] at this
                  exact absurd this (by simp)
                | succ j =>
                  have hj : j < fcu.length - 1 := by omega
                  have h1 : fcu.get ⟨j + 1, hi⟩ = d := hget
                  have hnone : mkLinearZ (fcu.getD j 0) (fcu.getD (j + 1) 0)
                      (w (j + 1)) (bo (j + 1)) = none := by
                    apply (mkLinearZ_none_iff _ _ _ _).mpr
                    right
                    rw [getD_eq_get fcu 0 hi, h1]
                    exact hdneg
                  have := (mapM_option_eq_none_iff (fun idx =>
                      mkLinearZ (fcu.getD idx 0) (fcu.getD (idx + 1) 0)
                        (w (idx + 1)) (bo (idx + 1)))
                    (List.range (fcu.length - 1))).mpr
                    ⟨j, List.mem_range.mpr hj, hnone⟩
                  rw [hB] at this
                  exact absurd this (by simp)

/-- C7 (amended): over the full integer domain of `fc_units`, construction of
either variant fails eagerly exactly when `fc_units` is empty (the assert) or
contains a negative entry (`nn.Linear` rejects negative dimensions at
construction); equivalently, for every non-empty list of nonnegative integers
construction succeeds, and a malformed configuration is never silently
corrected. -/
theorem initZ_fails_iff (ss as : Nat) (fcu : List ℤ)
    (w : Nat → Nat → Nat → ℚ) (bo : Nat → Nat → ℚ) :
    (QNetwork.initZ ss as fcu w bo = none ↔ fcu = [] ∨ ∃ d ∈ fcu, d < 0) ∧
    (DuelingQNetwork.initZ ss as fcu w bo = none ↔ fcu = [] ∨ ∃ d ∈ fcu, d < 0) :=
  ⟨initZ_plain_none_iff ss as fcu w bo, initZ_duel_none_iff ss as fcu w bo⟩

/-- C7 counterexample: `fc_units = [-1]` is a non-empty list of integers that
passes both asserts, yet construction of either variant fails inside the
first layer constructor (negative dimension). -/
theorem initZ_negative_cex :
    (([(-1 : ℤ)] : List ℤ) ≠ []) ∧
    QNetwork.initZ 2 3 [-1] wOne bZero = none ∧
    DuelingQNetwork.initZ 2 3 [-1] wOne bZero = none :=
  ⟨by simp, rfl, rfl⟩

/-- Sanity check: on a nonnegative configuration the integer-domain
constructors agree with the nonnegative-domain ones used elsewhere. -/
theorem initZ_agrees_on_example :
    QNetwork.initZ 2 3 [2, 4] wOne bZero = QNetwork.init 2 3 [2, 4] wOne bZero ∧
    DuelingQNetwork.initZ 2 3 [2, 4] wOne bZero =
      DuelingQNetwork.init 2 3 [2, 4] wOne bZero :=
  ⟨rfl, rfl⟩

/-! ### C10 -/

/-- C10: the dueling forward fails on an unbatched rank-1 state — the mean
over dimension 1 is undefined there — while the plain forward on the same
rank-1 input succeeds and returns `action_size` values. -/
theorem dueling_unbatched_fails (dnet : DuelingQNetwork) (ss as : Nat)
    (fcu : List Nat) (w : Nat → Nat → Nat → ℚ) (bo : Nat → Nat → ℚ)
    (pnet : QNetwork) (hp : QNetwork.init ss as fcu w bo = some pnet)
    (x : List ℚ) (hx : x.length = ss) :
    dnet.forward (.t1 x) = none ∧
    ∃ y, pnet.forward (.t1 x) = Tens.t1 y ∧ y.length = as :=
  ⟨duel_forward_t1_none dnet x, qnet_forward_t1_len ss as fcu w bo pnet hp x⟩

/-- A concrete dueling network: state size 2, action size 3, one hidden
layer. -/
def netDuelW : DuelingQNetwork :=
  (DuelingQNetwork.init 2 3 [2] wOne bZero).getD
    ⟨[], ⟨[], []⟩, ⟨[], []⟩, ⟨[], []⟩, ⟨[], []⟩⟩

/-- C10 witness: the concrete dueling network rejects the rank-1 input that
the concrete plain network accepts. -/
theorem dueling_unbatched_fails_witness :
    netDuelW.forward (.t1 [5, 7]) = none ∧
    ∃ y, netPlainW.forward (.t1 [5, 7]) = Tens.t1 y ∧ y.length = 3 :=
  dueling_unbatched_fails netDuelW 2 3 [2] wOne bZero netPlainW rfl [5, 7] rfl

/-! ### Mean-centering helper lemmas -/

theorem sum_map_sub_const (l : List ℚ) (c : ℚ) :
    (l.map (fun q => q - c)).sum = l.sum - l.length * c := by
  induction l with
  | nil => simp
  | cons a t ih =>
    simp only [List.map_cons, List.sum_cons, ih, List.length_cons]
    push_cast
    ring

theorem qmean_center (l : List ℚ) : qmean (l.map (fun q => q - qmean l)) = 0 := by
  rcases Nat.eq_zero_or_pos l.length with h | h
  · rw [List.length_eq_zero] at h
    subst h
    simp [qmean]
  · unfold qmean
    rw [List.length_map, sum_map_sub_const]
    have hn : (l.length : ℚ) ≠ 0 := Nat.cast_ne_zero.mpr (by omega)
    rw [mul_comm, div_mul_cancel₀ _ hn, sub_self, zero_div]

theorem mapM_rowBroadcast_zip (f : ℚ → ℚ → ℚ) (u v s : List ℚ → List ℚ)
    (h : ∀ r, rowBroadcast f (u r) (v r) = some (s r)) :
    ∀ xm : List (List ℚ),
      (List.zip (xm.map u) (xm.map v)).mapM (fun p => rowBroadcast f p.1 p.2) =
        some (xm.map s) := by
  intro xm
  rw [← List.mapM'_eq_mapM]
  induction xm with
  | nil => rfl
  | cons r t ih =>
    simp only [List.map_cons, List.zip_cons_cons, List.mapM'_cons, h r, ih]
    rfl

theorem matBroadcast_map_same (f : ℚ → ℚ → ℚ) (u v s : List ℚ → List ℚ)
    (xm : List (List ℚ))
    (h : ∀ r, rowBroadcast f (u r) (v r) = some (s r)) :
    matBroadcast f (xm.map u) (xm.map v) = some (xm.map s) := by
  unfold matBroadcast
  rw [if_pos (by simp)]
  exact mapM_rowBroadcast_zip f u v s h xm

theorem rowBroadcast_right_one (f : ℚ → ℚ → ℚ) (r : List ℚ) (c : ℚ) :
    rowBroadcast f r [c] = some (r.map (fun q => f q c)) := by
  unfold rowBroadcast
  by_cases h : r.length = 1
  · rw [if_pos (by simp [h])]
    obtain ⟨a, rfl⟩ := List.length_eq_one.mp h
    rfl
  · rw [if_neg (by simpa using h), if_neg h, if_pos (by simp)]
    rfl

theorem rowBroadcast_left_one (f : ℚ → ℚ → ℚ) (c : ℚ) (s : List ℚ) :
    rowBroadcast f [c] s = some (s.map (f c)) := by
  unfold rowBroadcast
  by_cases h : s.length = 1
  · rw [if_pos (by simp [h])]
    obtain ⟨a, rfl⟩ := List.length_eq_one.mp h
    rfl
  · rw [if_neg (by simp; omega), if_pos (by simp)]
    rfl

theorem matBroadcast_right_one (f : ℚ → ℚ → ℚ) (u : List ℚ → List ℚ)
    (c : List ℚ → ℚ) (xm : List (List ℚ)) :
    matBroadcast f (xm.map u) (xm.map (fun r => [c r])) =
      some (xm.map (fun r => (u r).map (fun q => f q (c r)))) :=
  matBroadcast_map_same f u (fun r => [c r])
    (fun r => (u r).map (fun q => f q (c r))) xm
    (fun r => rowBroadcast_right_one f (u r) (c r))

theorem matBroadcast_left_one (f : ℚ → ℚ → ℚ) (c : List ℚ → ℚ)
    (v : List ℚ → List ℚ) (xm : List (List ℚ)) :
    matBroadcast f (xm.map (fun r => [c r])) (xm.map v) =
      some (xm.map (fun r => (v r).map (f (c r)))) :=
  matBroadcast_map_same f (fun r => [c r]) v
    (fun r => (v r).map (f (c r))) xm
    (fun r => rowBroadcast_left_one f (c r) (v r))

theorem forall₂_map_same {α β γ : Type} (R : β → γ → Prop) (f : α → β)
    (g : α → γ) (l : List α) (h : ∀ a, R (f a) (g a)) :
    List.Forall₂ R (l.map f) (l.map g) := by
  induction l with
  | nil => exact List.Forall₂.nil
  | cons a t ih => exact List.Forall₂.cons (h a) ih

/-! ### C2 -/

/-- C2: for every dueling network and every batched input, each row of the
output `Q` satisfies the dueling identity: subtracting the value head's
scalar `V` of that sample leaves a row whose mean over the action dimension
is exactly zero. -/
theorem dueling_centering (ss as : Nat) (fcu : List Nat)
    (w : Nat → Nat → Nat → ℚ) (bo : Nat → Nat → ℚ) (dnet : DuelingQNetwork)
    (hinit : DuelingQNetwork.init ss as fcu w bo = some dnet)
    (rows : List (List ℚ)) (Q : List (List ℚ))
    (hfwd : dnet.forward (.t2 rows) = some (.t2 Q)) :
    List.Forall₂ (fun qr v0 => qmean (qr.map (fun q => q - v0)) = 0) Q
      (dnet.valueOut (.t2 rows)) := by
  unfold DuelingQNetwork.init at hinit
  by_cases hemp : fcu = []
  · rw [if_pos hemp] at hinit
    exact absurd hinit (by simp)
  rw [if_neg hemp] at hinit
  injection hinit with hnet
  obtain ⟨xm, hxm, hlenxm⟩ := fold_layers_t2 dnet.fc_layers rows
  subst hnet
  unfold DuelingQNetwork.forward at hfwd
  rw [hxm] at hfwd
  simp only [tlinear_t2, trelu_t2, List.map_map, Function.comp_def,
    tmeanDim1_t2, tunsqueeze1_t1, tbin_t2, linearRow_mkLinear_one,
    matBroadcast_right_one, matBroadcast_left_one, Option.map_some',
    Option.some.injEq, Tens.t2.injEq] at hfwd
  subst hfwd
  unfold DuelingQNetwork.valueOut
  rw [hxm]
  simp only [tlinear_t2, trelu_t2, List.map_map, Function.comp_def,
    linearRow_mkLinear_one, List.headD_cons]
  have key : ∀ (A : List ℚ) (v0 : ℚ),
      qmean (List.map (fun q => q - v0)
        (List.map (fun q => v0 + (q - qmean A)) A)) = 0 := by
    intro A v0
    rw [List.map_map]
    have hco : ((fun q => q - v0) ∘ fun q => v0 + (q - qmean A)) =
        fun q => q - qmean A := by
      funext q
      simp only [Function.comp_apply]
      ring
    rw [hco]
    exact qmean_center A
  exact forall₂_map_same _ _ _ xm (fun r => key _ _)

/-- C2 witness: the concrete dueling network (all weights 1, biases 0) on the
one-row batch `[[1, 2]]` produces `Q = [[192, 192, 192]]`, and the centering
invariant holds there against the value head's output. -/
theorem dueling_centering_witness :
    List.Forall₂ (fun qr v0 => qmean (qr.map (fun q => q - v0)) = 0)
      [[192, 192, 192]] (netDuelW.valueOut (.t2 [[1, 2]])) :=
  dueling_centering 2 3 [2] wOne bZero netDuelW rfl [[1, 2]] [[192, 192, 192]]
    (by norm_num [netDuelW, DuelingQNetwork.init, DuelingQNetwork.forward,
      mkLinear, wOne, bZero, linearRow, dot, tlinear, trelu, tmeanDim1,
      tunsqueeze1, tbin, matBroadcast, rowBroadcast, qmean, reluQ,
      List.range_succ, List.mapM.loop, max_def])
